import Mathlib

/-!
Geometric core of the symdetect square-with-circles detector.

A shallow embedding of `src/geom.cpp` and `src/symdetect.cpp`
(`Segment::lengthSq`, `Segment::length`, `Segment::angleDeg`, `Circle::move`,
`SquareWithCircles::sideLength`, `SquareWithCircles::center`, and of
`SymbolDetector` the functions `isQuadSquare`, `isInside`, `removeInnerQuads`,
`squaresWithCircles`, `sortingParameter`, `sortSquares`), followed by the
properties stated about them.

Modelling conventions.
* `int` is `Int` with explicit two's-complement wrap-around (`wrap32`).
* `float` and `double` are `Flt`: NaN, the infinities, or an exact rational.
  Rounding is not modelled; NaN and infinity behave as in IEEE-754.
* OpenCV and the C++ standard library are not part of the repository. What the
  code calls from them enters as a parameter: `cv::pointPolygonTest`
  (`PolygonTest`), `cv::boundingRect` and the circle detector (arguments of
  `squaresWithCircles`), `std::sqrt` and `std::acos` (`Libm`), `std::sort` on the
  result vector (`StdSort`). Concrete instances (`pointPolygonTest`, `refLibm`,
  `tieReversingSort`) are given to evaluate the code on explicit inputs.
-/

namespace Symdetect

/-! Data model -/

/-- The type `cv::Point`: an integer 2D coordinate. -/
structure Point where
  x : Int
  y : Int
deriving DecidableEq, Repr

/-- The alias `using Contour = std::vector<Point>`. -/
abbrev Contour := List Point

/-- The signature of `cv::pointPolygonTest(contour, pt, false)`. Only the sign of the
result is read: positive inside, zero on the boundary, negative outside. -/
abbrev PolygonTest := Contour → Point → Int

/-! Duplicate eliminator: `isInside` and `removeInnerQuads` -/

/-- The function `SymbolDetector::isInside`: false as soon as one point of `inner`
tests negative against `outer`, true otherwise. -/
def isInside (ppt : PolygonTest) (inner outer : Contour) : Bool :=
  inner.all (fun point => !decide (ppt outer point < 0))

/-- The body of the outer loop of `removeInnerQuads` for the index and quad `ic`:
`largest` stays true unless some `j ≠ i` has `isInside(cur, quads[j])`. -/
def isLargest (ppt : PolygonTest) (quads : List Contour) (ic : Nat × Contour) : Bool :=
  !(quads.enum.any (fun js => js.1 != ic.1 && isInside ppt ic.2 js.2))

/-- The function `SymbolDetector::removeInnerQuads`: the quads, in input order, that
are `largest`. The `centers` vector the source fills first is never read. -/
def removeInnerQuads (ppt : PolygonTest) (quads : List Contour) : List Contour :=
  (quads.enum.filter (isLargest ppt quads)).map Prod.snd

/-! A concrete point-in-polygon test -/

/-- One edge `v0 → v` of the ray-casting test at the point `ip`: `none` when the
point lies on the edge, else the number (0 or 1) of crossings of the ray to the right. -/
def edgeStep (ip v0 v : Point) : Option Nat :=
  if (v0.y ≤ ip.y ∧ v.y ≤ ip.y) ∨ (v0.y > ip.y ∧ v.y > ip.y) ∨ (v0.x < ip.x ∧ v.x < ip.x) then
    if ip.y = v.y ∧ (ip.x = v.x ∨ (ip.y = v0.y ∧
        ((v0.x ≤ ip.x ∧ ip.x ≤ v.x) ∨ (v.x ≤ ip.x ∧ ip.x ≤ v0.x)))) then none
    else some 0
  else
    let dist := (ip.y - v0.y) * (v.x - v0.x) - (ip.x - v0.x) * (v.y - v0.y)
    if dist = 0 then none
    else some (if 0 < (if v.y < v0.y then -dist else dist) then 1 else 0)

/-- The edges of the contour in turn, starting from the closing edge; an odd number
of crossings means inside. -/
def pptLoop (ip : Point) : Point → List Point → Nat → Int
  | _, [], counter => if counter % 2 = 0 then -1 else 1
  | v0, v :: rest, counter =>
    match edgeStep ip v0 v with
    | none => 0
    | some k => pptLoop ip v rest (counter + k)

/-- Modelled from the spec: `cv::pointPolygonTest` is an OpenCV primitive, absent from
the sources; the spec describes it as a standard point-in-polygon predicate in which
the boundary counts as inside. This is the even-odd ray-casting test on integer
points, in the form OpenCV uses for integer contours: `0` on the boundary, `1`
inside, `-1` outside (and `-1` for an empty contour). -/
def pointPolygonTest : PolygonTest := fun contour pt =>
  match contour.getLast? with
  | none => -1
  | some last => pptLoop pt last contour 0

/-- The axis-aligned square with opposite corners `(a, a)` and `(b, b)`. -/
def sq (a b : Int) : Contour := [⟨a, a⟩, ⟨b, a⟩, ⟨b, b⟩, ⟨a, b⟩]

/-! Floating point -/

/-- An IEEE-754 value (`float` or `double`): NaN, an infinity, or a finite number.
Finite values are kept as exact rationals: rounding is not modelled, and the two
zeros are one (every zero divisor in the code is a `+0`). -/
inductive Flt where
  | nan : Flt
  | ninf : Flt
  | fin (q : ℚ) : Flt
  | pinf : Flt
deriving DecidableEq

/-- The conversion of an `int` to floating point. -/
def Flt.ofInt (n : Int) : Flt := Flt.fin n

/-- Addition; `∞ + (-∞)` is NaN. -/
def Flt.add : Flt → Flt → Flt
  | nan, _ => nan
  | _, nan => nan
  | pinf, ninf => nan
  | ninf, pinf => nan
  | pinf, _ => pinf
  | _, pinf => pinf
  | ninf, _ => ninf
  | _, ninf => ninf
  | fin a, fin b => fin (a + b)

/-- Negation. -/
def Flt.neg : Flt → Flt
  | nan => nan
  | ninf => pinf
  | pinf => ninf
  | fin a => fin (-a)

/-- Subtraction. -/
def Flt.sub (a b : Flt) : Flt := Flt.add a (Flt.neg b)

/-- The sign of a value: `-1`, `0` or `1` (`0` for NaN). -/
def Flt.sign : Flt → Int
  | nan => 0
  | ninf => -1
  | pinf => 1
  | fin a => if a < 0 then -1 else if a = 0 then 0 else 1

/-- The infinity of the given sign; NaN for sign `0`. -/
def Flt.ofSign (s : Int) : Flt := if s < 0 then ninf else if s = 0 then nan else pinf

/-- Multiplication; `0 * ∞` is NaN. -/
def Flt.mul : Flt → Flt → Flt
  | nan, _ => nan
  | _, nan => nan
  | fin a, fin b => fin (a * b)
  | a, b => ofSign (sign a * sign b)

/-- Division; `0 / 0` and `∞ / ∞` are NaN, `x / 0` is an infinity of the sign of `x`. -/
def Flt.div : Flt → Flt → Flt
  | nan, _ => nan
  | _, nan => nan
  | fin a, fin b => if b = 0 then ofSign (sign (fin a)) else fin (a / b)
  | fin _, _ => fin 0
  | pinf, fin b => if b < 0 then ninf else pinf
  | ninf, fin b => if b < 0 then pinf else ninf
  | _, _ => nan

/-- The comparison `a < b`; false as soon as one side is NaN. -/
def Flt.lt : Flt → Flt → Bool
  | nan, _ => false
  | _, nan => false
  | ninf, ninf => false
  | ninf, _ => true
  | _, ninf => false
  | pinf, _ => false
  | fin _, pinf => true
  | fin a, fin b => decide (a < b)

/-- The function `std::min(a, b)`, which is `(b < a) ? b : a`. -/
def Flt.min (a b : Flt) : Flt := if Flt.lt b a then b else a

/-- The two `<cmath>` functions the code calls, on finite arguments of their domain. -/
structure Libm where
  sqrt : ℚ → ℚ
  acos : ℚ → ℚ

/-- What the development assumes of `std::sqrt` and `std::acos`: the square root is
positive on positive arguments, zero at zero and exact on squares; `acos(0)` is
`π / 2` to two decimals. -/
structure Libm.Sound (lm : Libm) : Prop where
  sqrt_pos : ∀ q, 0 < q → 0 < lm.sqrt q
  sqrt_zero : lm.sqrt 0 = 0
  sqrt_sq : ∀ q, 0 ≤ q → lm.sqrt (q * q) = q
  acos_zero : 157 / 100 ≤ lm.acos 0 ∧ lm.acos 0 ≤ 158 / 100

/-- The function `std::sqrt`: NaN on NaN and on negative arguments, `+∞` on `+∞`. -/
def Flt.sqrt (lm : Libm) : Flt → Flt
  | nan => nan
  | ninf => nan
  | pinf => pinf
  | fin q => if q < 0 then nan else fin (lm.sqrt q)

/-- The function `std::acos`: NaN on NaN and outside `[-1, 1]`. -/
def Flt.acos (lm : Libm) : Flt → Flt
  | fin q => if q < -1 ∨ 1 < q then nan else fin (lm.acos q)
  | _ => nan

/-- The `double` constant `M_PI`. -/
def M_PI : ℚ := 884279719003555 / 281474976710656

/-- A reference square root: exact on squares of rationals, truncated to 52 binary
digits otherwise. -/
def refSqrt (q : ℚ) : ℚ :=
  if Nat.sqrt q.num.toNat * Nat.sqrt q.num.toNat = q.num.toNat ∧
      Nat.sqrt q.den * Nat.sqrt q.den = q.den then
    (Nat.sqrt q.num.toNat : ℚ) / (Nat.sqrt q.den : ℚ)
  else (Nat.sqrt (q.num.toNat * q.den * 2 ^ 104) : ℚ) / ((q.den : ℚ) * 2 ^ 52)

/-- A reference arc cosine: `M_PI / 2` minus the first terms of the arc sine series. -/
def refAcos (q : ℚ) : ℚ := M_PI / 2 - (q + q ^ 3 / 6 + 3 * q ^ 5 / 40 + 15 * q ^ 7 / 336)

/-- A reference instance of the `<cmath>` functions. -/
def refLibm : Libm := ⟨refSqrt, refAcos⟩

/-! Geometry kit (`geom.cpp`) -/

/-- Two's-complement wrap-around of `int` arithmetic. -/
def wrap32 (n : Int) : Int := (n + 2147483648) % 4294967296 - 2147483648

/-- Pixel coordinates small enough that no squared edge length overflows `int`. -/
def SmallCoords (p : Point) : Prop := 0 ≤ p.x ∧ p.x ≤ 32767 ∧ 0 ≤ p.y ∧ p.y ≤ 32767

/-- The operator `cv::Point::operator-`. -/
def Point.sub (a b : Point) : Point := ⟨wrap32 (a.x - b.x), wrap32 (a.y - b.y)⟩

/-- The operator `cv::Point::operator+`, as `std::accumulate` applies it. -/
def Point.add (a b : Point) : Point := ⟨wrap32 (a.x + b.x), wrap32 (a.y + b.y)⟩

/-- The function `cv::Point::dot`, computed in `int`. -/
def Point.dot (a b : Point) : Int := wrap32 (a.x * b.x + a.y * b.y)

/-- The function `cv::Point::ddot`, computed in `double`. -/
def Point.ddot (a b : Point) : Flt :=
  Flt.add (Flt.mul (Flt.ofInt a.x) (Flt.ofInt b.x)) (Flt.mul (Flt.ofInt a.y) (Flt.ofInt b.y))

/-- The class `geom::Segment`. -/
structure Segment where
  a : Point
  b : Point

/-- The function `Segment::lengthSq`. -/
def Segment.lengthSq (s : Segment) : Int :=
  let l := s.a.sub s.b
  l.dot l

/-- The function `Segment::length`. -/
def Segment.length (lm : Libm) (s : Segment) : Flt := Flt.sqrt lm (Flt.ofInt s.lengthSq)

/-- The function `Segment::angleDeg`. -/
def Segment.angleDeg (lm : Libm) (u v : Segment) : Flt :=
  let l1 := u.a.sub u.b
  let l2 := v.a.sub v.b
  let cos := Flt.div (l1.ddot l2) (Flt.sqrt lm (Flt.mul (l1.ddot l1) (l2.ddot l2)))
  Flt.div (Flt.mul (Flt.acos lm cos) (Flt.fin 180)) (Flt.fin M_PI)

/-- The type `cv::Point2f`. -/
structure Point2f where
  x : Flt
  y : Flt
deriving DecidableEq

/-- The implicit conversion of `cv::Point` to `cv::Point2f`. -/
def Point.toPoint2f (p : Point) : Point2f := ⟨Flt.ofInt p.x, Flt.ofInt p.y⟩

/-- The operator `cv::Point2f::operator-`. -/
def Point2f.sub (a b : Point2f) : Point2f := ⟨Flt.sub a.x b.x, Flt.sub a.y b.y⟩

/-- The function `cv::Point2f::dot`. -/
def Point2f.dot (a b : Point2f) : Flt := Flt.add (Flt.mul a.x b.x) (Flt.mul a.y b.y)

/-- The class `geom::Circle`. -/
structure Circle where
  x : Flt
  y : Flt
  radius : Flt
deriving DecidableEq

/-- The function `Circle::center`. -/
def Circle.center (c : Circle) : Point2f := ⟨c.x, c.y⟩

/-- The function `Circle::move`. -/
def Circle.move (c : Circle) (offset : Point2f) : Circle :=
  ⟨Flt.add c.x offset.x, Flt.add c.y offset.y, c.radius⟩

/-! Quad validator: `isQuadSquare` -/

/-- The constant `square_side_ratio_max`. -/
def square_side_ratio_max : Flt := Flt.fin (115 / 100)

/-- The constant `square_angle_min`, in degrees. -/
def square_angle_min : Flt := Flt.fin 80

/-- The constant `square_angle_max`, in degrees. -/
def square_angle_max : Flt := Flt.fin 100

/-- The loop of `isQuadSquare` over the remaining indices `i`, then the side-ratio
test on the collected squared lengths. On `int`s `std::sort` has one possible result,
the ascending list. -/
def isQuadSquareFrom (lm : Libm) (quad : Contour) : List Nat → List Int → Bool
  | [], sq_lengths =>
    let sorted := sq_lengths.insertionSort (fun a b => a ≤ b)
    let sq_ratio := Flt.div (Flt.ofInt (sorted.getLastD 0)) (Flt.ofInt (sorted.headD 0))
    if Flt.lt (Flt.mul square_side_ratio_max square_side_ratio_max) sq_ratio then false
    else true
  | i :: rest, sq_lengths =>
    let j := (i + 1) % 4
    let k := (i + 2) % 4
    let u : Segment := ⟨quad.getD j ⟨0, 0⟩, quad.getD i ⟨0, 0⟩⟩
    let v : Segment := ⟨quad.getD j ⟨0, 0⟩, quad.getD k ⟨0, 0⟩⟩
    let ang := Segment.angleDeg lm u v
    if Flt.lt ang square_angle_min || Flt.lt square_angle_max ang then false
    else isQuadSquareFrom lm quad rest (sq_lengths ++ [u.lengthSq])

/-- The function `SymbolDetector::isQuadSquare`. It reads `quad[0..3]`: with fewer
than four vertices the reads are out of bounds, which is `none` here. -/
def isQuadSquare (lm : Libm) (quad : Contour) : Option Bool :=
  if 4 ≤ quad.length then some (isQuadSquareFrom lm quad [0, 1, 2, 3] []) else none

/-- The segment `u` of `isQuadSquare` at vertex index `i`. -/
def edgeU (quad : Contour) (i : Nat) : Segment :=
  ⟨quad.getD ((i + 1) % 4) ⟨0, 0⟩, quad.getD i ⟨0, 0⟩⟩

/-- The segment `v` of `isQuadSquare` at vertex index `i`. -/
def edgeV (quad : Contour) (i : Nat) : Segment :=
  ⟨quad.getD ((i + 1) % 4) ⟨0, 0⟩, quad.getD ((i + 2) % 4) ⟨0, 0⟩⟩

/-- The side-ratio test that ends `isQuadSquare`, on the collected squared lengths. -/
def sideRatioOk (sq_lengths : List Int) : Bool :=
  !(Flt.lt (Flt.mul square_side_ratio_max square_side_ratio_max)
    (Flt.div (Flt.ofInt ((sq_lengths.insertionSort (fun a b => a ≤ b)).getLastD 0))
      (Flt.ofInt ((sq_lengths.insertionSort (fun a b => a ≤ b)).headD 0))))

/-- The struct `SquareWithCircles`. -/
structure SquareWithCircles where
  square : Contour
  circles : List Circle
deriving DecidableEq

/-- The function `SquareWithCircles::sideLength`. The source reads
`square[(i + 1) % 4]`, in bounds for the four-vertex squares the pipeline builds. -/
def SquareWithCircles.sideLength (lm : Libm) (sq : SquareWithCircles) : Flt :=
  Flt.div
    ((List.range sq.square.length).foldl
      (fun len i =>
        Flt.add len
          (Segment.length lm ⟨sq.square.getD i ⟨0, 0⟩, sq.square.getD ((i + 1) % 4) ⟨0, 0⟩⟩))
      (Flt.fin 0))
    (Flt.fin 4)

/-- The function `SquareWithCircles::center`. -/
def SquareWithCircles.center (sq : SquareWithCircles) : Point2f :=
  let sum := sq.square.foldl Point.add ⟨0, 0⟩
  ⟨Flt.div (Flt.ofInt sum.x) (Flt.fin 4), Flt.div (Flt.ofInt sum.y) (Flt.fin 4)⟩

/-- The distance `dist` that `sortingParameter` computes for one circle. -/
def centerDist (lm : Libm) (sq : SquareWithCircles) (circle : Circle) : Flt :=
  let l := sq.center.sub circle.center
  Flt.sqrt lm (l.dot l)

/-- The function `SymbolDetector::sortingParameter`. -/
def sortingParameter (lm : Libm) (sq : SquareWithCircles) : Flt :=
  let side_len := sq.sideLength lm
  let min_dist :=
    sq.circles.foldl (fun min_dist circle => Flt.min min_dist (centerDist lm sq circle)) Flt.pinf
  Flt.div min_dist side_len

/-- The signature of `std::sort` on a vector of `SquareWithCircles`. -/
abbrev StdSort :=
  (SquareWithCircles → SquareWithCircles → Bool) → List SquareWithCircles → List SquareWithCircles

/-- The function `SymbolDetector::sortSquares`. -/
def sortSquares (lm : Libm) (sort : StdSort) (squares : List SquareWithCircles) :
    List SquareWithCircles :=
  sort (fun a b => Flt.lt (sortingParameter lm a) (sortingParameter lm b)) squares

/-- The function `SymbolDetector::squaresWithCircles`. Here `boundingRectTl square`
stands for `cv::boundingRect(square).tl()` and `findCircles square` for the circles
the detector reports, in crop-local coordinates, on the crop of the image at that
rectangle. -/
def squaresWithCircles (boundingRectTl : Contour → Point) (findCircles : Contour → List Circle) :
    List Contour → List SquareWithCircles
  | [] => []
  | square :: rest =>
    let offset := (boundingRectTl square).toPoint2f
    let circles := (findCircles square).map (fun circle => circle.move offset)
    if circles.isEmpty then squaresWithCircles boundingRectTl findCircles rest
    else ⟨square, circles⟩ :: squaresWithCircles boundingRectTl findCircles rest

/-- The requirement `std::sort` puts on its comparator, over the elements sorted:
irreflexive, transitive, and with a transitive equivalence. -/
def StrictWeakOn {α : Type} (comp : α → α → Bool) (l : List α) : Prop :=
  (∀ a ∈ l, comp a a = false) ∧
  (∀ a ∈ l, ∀ b ∈ l, ∀ c ∈ l, comp a b = true → comp b c = true → comp a c = true) ∧
  (∀ a ∈ l, ∀ b ∈ l, ∀ c ∈ l, comp a b = false → comp b a = false → comp b c = false →
    comp c b = false → comp a c = false ∧ comp c a = false)

/-- What `std::sort` guarantees: it rearranges the range in place, and with a strict
weak ordering no element is followed by a smaller one. The order of equivalent
elements is left open. -/
structure StdSort.Conforms (sort : StdSort) : Prop where
  perm : ∀ comp l, (sort comp l).Perm l
  sorted : ∀ comp l, StrictWeakOn comp l → (sort comp l).Pairwise (fun a b => comp b a = false)

/-- Insertion of `x` after every element that is not greater. -/
def insertAfter {α : Type} (comp : α → α → Bool) (x : α) : List α → List α
  | [] => [x]
  | y :: ys => if comp x y then x :: y :: ys else y :: insertAfter comp x ys

/-- An insertion sort that conforms to `std::sort` and puts, among equivalent
elements, the later ones of the input first. -/
def tieReversingSort {α : Type} (comp : α → α → Bool) : List α → List α
  | [] => []
  | x :: xs => insertAfter comp x (tieReversingSort comp xs)

/-- The square of side 10 with corner `(0, 0)`. -/
def nearSquare : Contour := [⟨0, 0⟩, ⟨10, 0⟩, ⟨10, 10⟩, ⟨0, 10⟩]

/-- The square of side 10 with corner `(20, 0)`. -/
def farSquare : Contour := [⟨20, 0⟩, ⟨30, 0⟩, ⟨30, 10⟩, ⟨20, 10⟩]

theorem enum_fst_pairwise {α : Type} (l : List α) :
    l.enum.Pairwise (fun a b => a.1 ≠ b.1) := by
  have h : (l.enum.map Prod.fst).Nodup := by
    rw [List.enum_map_fst]; exact List.nodup_range _
  exact (List.pairwise_map.1 h)

theorem mem_enum_iff_getElem {α : Type} (l : List α) (ic : Nat × α) :
    ic ∈ l.enum ↔ ∃ h : ic.1 < l.length, l[ic.1] = ic.2 := by
  obtain ⟨i, c⟩ := ic
  rw [List.mk_mem_enum_iff_getElem?]
  simp [List.getElem?_eq_some_iff]

theorem isLargest_iff (ppt : PolygonTest) (quads : List Contour) (ic : Nat × Contour) :
    isLargest ppt quads ic = true ↔
      ∀ js ∈ quads.enum, js.1 ≠ ic.1 → isInside ppt ic.2 js.2 = false := by
  unfold isLargest
  simp only [Bool.not_eq_true', List.any_eq_false, Bool.and_eq_true, bne_iff_ne, ne_eq, not_and,
    Bool.not_eq_true]

/-- Two survivors with different input indices do not dominate one another. -/
theorem kept_not_inside (ppt : PolygonTest) (quads : List Contour) (x y : Nat × Contour)
    (hx : x ∈ quads.enum.filter (isLargest ppt quads))
    (hy : y ∈ quads.enum.filter (isLargest ppt quads)) (hne : x.1 ≠ y.1) :
    isInside ppt x.2 y.2 = false := by
  rw [List.mem_filter] at hx hy
  exact (isLargest_iff ppt quads x).1 hx.2 y hy.1 (Ne.symm hne)

theorem removeInnerQuads_no_nested_aux (ppt : PolygonTest) (quads : List Contour) (a b : Nat)
    (ha : a < (removeInnerQuads ppt quads).length) (hb : b < (removeInnerQuads ppt quads).length)
    (hab : a ≠ b) :
    isInside ppt ((removeInnerQuads ppt quads)[a]) ((removeInnerQuads ppt quads)[b]) = false := by
  unfold removeInnerQuads at ha hb ⊢
  set L := quads.enum.filter (isLargest ppt quads) with hL
  have ha' : a < L.length := by simpa using ha
  have hb' : b < L.length := by simpa using hb
  have hpw : L.Pairwise (fun x y => x.1 ≠ y.1) :=
    (enum_fst_pairwise quads).sublist (List.filter_sublist _)
  have hne : (L[a]).1 ≠ (L[b]).1 := by
    rcases Nat.lt_or_gt_of_ne hab with h | h
    · exact (List.pairwise_iff_getElem.1 hpw) a b ha' hb' h
    · exact Ne.symm ((List.pairwise_iff_getElem.1 hpw) b a hb' ha' h)
  simp only [List.getElem_map]
  exact kept_not_inside ppt quads L[a] L[b] (List.getElem_mem _) (List.getElem_mem _) hne

theorem isInside_eq_true_iff (ppt : PolygonTest) (inner outer : Contour) :
    isInside ppt inner outer = true ↔ ∀ p ∈ inner, 0 ≤ ppt outer p := by
  simp [isInside]

theorem isInside_eq_false_iff (ppt : PolygonTest) (inner outer : Contour) :
    isInside ppt inner outer = false ↔ ∃ p ∈ inner, ppt outer p < 0 := by
  simp [isInside]

theorem removeInnerQuads_pair (ppt : PolygonTest) (a b : Contour) :
    removeInnerQuads ppt [a, b] =
      (if isInside ppt a b then [] else [a]) ++ (if isInside ppt b a then [] else [b]) := by
  simp only [removeInnerQuads, isLargest, List.enum, List.enumFrom, List.filter, List.any]
  by_cases h1 : isInside ppt a b = true <;> by_cases h2 : isInside ppt b a = true <;>
    simp [h1, h2]

theorem edgeStep_right_of (ip v0 v : Point) (h0 : v0.x ≤ ip.x) (h1 : v.x ≤ ip.x) :
    edgeStep ip v0 v = none ∨ edgeStep ip v0 v = some 0 := by
  unfold edgeStep
  by_cases hc : (v0.y ≤ ip.y ∧ v.y ≤ ip.y) ∨ (v0.y > ip.y ∧ v.y > ip.y) ∨
      (v0.x < ip.x ∧ v.x < ip.x)
  · rw [if_pos hc]
    split_ifs
    · exact Or.inl rfl
    · exact Or.inr rfl
  · rw [if_neg hc]
    simp only []
    by_cases hd : (ip.y - v0.y) * (v.x - v0.x) - (ip.x - v0.x) * (v.y - v0.y) = 0
    · rw [if_pos hd]; exact Or.inl rfl
    · rw [if_neg hd]
      right
      simp only [Option.some.injEq, ite_eq_right_iff, one_ne_zero, imp_false, not_lt]
      simp only [not_or, not_and, not_le, not_lt, gt_iff_lt] at hc
      obtain ⟨c1, c2, -⟩ := hc
      by_cases hv : v.y < v0.y
      · rw [if_pos hv]
        have hy1 : ip.y < v0.y := by
          by_contra hcon
          have := c1 (not_lt.1 hcon); omega
        have hy2 : v.y ≤ ip.y := by
          by_contra hcon
          have := c2 hy1; omega
        nlinarith [mul_nonneg (sub_nonneg.2 h0) (sub_nonneg.2 hy2),
          mul_nonneg (sub_nonneg.2 h1) (sub_nonneg.2 (le_of_lt hy1))]
      · rw [if_neg hv]
        have hy1 : v0.y ≤ ip.y := by
          by_contra hcon
          have := c2 (not_le.1 hcon); omega
        have hy2 : ip.y < v.y := c1 hy1
        nlinarith [mul_nonneg (sub_nonneg.2 h0) (sub_nonneg.2 (le_of_lt hy2)),
          mul_nonneg (sub_nonneg.2 h1) (sub_nonneg.2 hy1)]

theorem edgeStep_strictly_right_of (ip v0 v : Point) (h0 : v0.x < ip.x) (h1 : v.x < ip.x) :
    edgeStep ip v0 v = some 0 := by
  unfold edgeStep
  rw [if_pos (Or.inr (Or.inr ⟨h0, h1⟩)), if_neg]
  rintro ⟨-, h | ⟨-, h | h⟩⟩ <;> omega

theorem pptLoop_right_of (ip : Point) (l : List Point) (v0 : Point)
    (h0 : v0.x ≤ ip.x) (hl : ∀ v ∈ l, v.x ≤ ip.x) : pptLoop ip v0 l 0 ≤ 0 := by
  induction l generalizing v0 with
  | nil => simp [pptLoop]
  | cons v rest ih =>
    have hv : v.x ≤ ip.x := hl v (List.mem_cons_self _ _)
    rcases edgeStep_right_of ip v0 v h0 hv with h | h
    · simp [pptLoop, h]
    · simp only [pptLoop, h]
      exact ih v hv (fun w hw => hl w (List.mem_cons_of_mem _ hw))

theorem pptLoop_strictly_right_of (ip : Point) (l : List Point) (v0 : Point)
    (h0 : v0.x < ip.x) (hl : ∀ v ∈ l, v.x < ip.x) : pptLoop ip v0 l 0 = -1 := by
  induction l generalizing v0 with
  | nil => simp [pptLoop]
  | cons v rest ih =>
    have hv : v.x < ip.x := hl v (List.mem_cons_self _ _)
    simp only [pptLoop, edgeStep_strictly_right_of ip v0 v h0 hv]
    exact ih v hv (fun w hw => hl w (List.mem_cons_of_mem _ hw))

/-- A point that is not strictly left of some vertex is not strictly inside. -/
theorem pointPolygonTest_right_of (contour : Contour) (ip : Point)
    (h : ∀ v ∈ contour, v.x ≤ ip.x) : pointPolygonTest contour ip ≤ 0 := by
  unfold pointPolygonTest
  cases hlast : contour.getLast? with
  | none => simp
  | some last =>
    exact pptLoop_right_of ip contour last (h last (List.mem_of_getLast?_eq_some hlast)) h

/-- A point strictly to the right of every vertex is outside. -/
theorem pointPolygonTest_strictly_right_of (contour : Contour) (ip : Point)
    (h : ∀ v ∈ contour, v.x < ip.x) : pointPolygonTest contour ip = -1 := by
  unfold pointPolygonTest
  cases hlast : contour.getLast? with
  | none => simp
  | some last =>
    exact pptLoop_strictly_right_of ip contour last (h last (List.mem_of_getLast?_eq_some hlast)) h

theorem exists_rightmost (l : List Point) (hl : l ≠ []) :
    ∃ a ∈ l, ∀ v ∈ l, v.x ≤ a.x := by
  induction l with
  | nil => exact absurd rfl hl
  | cons p rest ih =>
    by_cases hr : rest = []
    · subst hr; exact ⟨p, by simp, by simp⟩
    · obtain ⟨a, ha, hmax⟩ := ih hr
      by_cases hpa : p.x ≤ a.x
      · refine ⟨a, List.mem_cons_of_mem _ ha, ?_⟩
        intro v hv
        rcases List.mem_cons.1 hv with rfl | hv
        · exact hpa
        · exact hmax v hv
      · refine ⟨p, List.mem_cons_self _ _, ?_⟩
        intro v hv
        rcases List.mem_cons.1 hv with rfl | hv
        · exact le_refl _
        · have := hmax v hv; omega

/-- For the ray-casting test: when every vertex of a non-empty `inner` is strictly inside
`outer`, the rightmost vertex of `outer` is outside `inner`. -/
theorem pointPolygonTest_outer_vertex_outside (outer inner : Contour) (hne : inner ≠ [])
    (hin : ∀ p ∈ inner, 0 < pointPolygonTest outer p) :
    ∃ p ∈ outer, pointPolygonTest inner p < 0 := by
  have houter : outer ≠ [] := by
    rintro rfl
    obtain ⟨p, hp⟩ := List.exists_mem_of_ne_nil inner hne
    have := hin p hp
    simp [pointPolygonTest] at this
  obtain ⟨a, ha, hmax⟩ := exists_rightmost outer houter
  refine ⟨a, ha, ?_⟩
  have hlt : ∀ v ∈ inner, v.x < a.x := by
    intro v hv
    by_contra hcon
    have h1 : pointPolygonTest outer v ≤ 0 :=
      pointPolygonTest_right_of outer v (fun w hw => le_trans (hmax w hw) (not_lt.1 hcon))
    have := hin v hv
    omega
  rw [pointPolygonTest_strictly_right_of inner a hlt]
  decide

/-- Under the ray-casting test the second condition of nesting follows from the
first: if every vertex of a non-empty `inner` is strictly inside `outer`, only `outer`
is kept, in either input order. -/
theorem removeInnerQuads_nested_rayCasting (outer inner : Contour) (hne : inner ≠ [])
    (hin : ∀ p ∈ inner, 0 < pointPolygonTest outer p) :
    removeInnerQuads pointPolygonTest [outer, inner] = [outer] ∧
      removeInnerQuads pointPolygonTest [inner, outer] = [outer] := by
  have h1 : isInside pointPolygonTest inner outer = true :=
    (isInside_eq_true_iff _ _ _).2 (fun p hp => le_of_lt (hin p hp))
  have h2 : isInside pointPolygonTest outer inner = false :=
    (isInside_eq_false_iff _ _ _).2 (pointPolygonTest_outer_vertex_outside outer inner hne hin)
  simp [removeInnerQuads_pair, h1, h2]

/-! Claims on the duplicate eliminator -/

/-- Claim C1: when every vertex of `inner` lies strictly inside `outer` and some vertex
of `outer` lies outside `inner`, `removeInnerQuads` returns exactly `[outer]` on the
two-element list, in either input order. -/
theorem removeInnerQuads_nested (ppt : PolygonTest) (outer inner : Contour)
    (hin : ∀ p ∈ inner, 0 < ppt outer p) (hout : ∃ p ∈ outer, ppt inner p < 0) :
    removeInnerQuads ppt [outer, inner] = [outer] ∧
      removeInnerQuads ppt [inner, outer] = [outer] := by
  have h1 : isInside ppt inner outer = true :=
    (isInside_eq_true_iff _ _ _).2 (fun p hp => le_of_lt (hin p hp))
  have h2 : isInside ppt outer inner = false := (isInside_eq_false_iff _ _ _).2 hout
  simp [removeInnerQuads_pair, h1, h2]

/-- Two concentric squares under the ray-casting test: only the outer one is kept. -/
theorem removeInnerQuads_nested_witness :
    removeInnerQuads pointPolygonTest [sq 0 10, sq 2 8] = [sq 0 10] ∧
      removeInnerQuads pointPolygonTest [sq 2 8, sq 0 10] = [sq 0 10] :=
  removeInnerQuads_nested pointPolygonTest (sq 0 10) (sq 2 8) (by decide) (by decide)

/-- Claim C2, as stated, fails: on two identical squares each copy is dominated by the
other and `removeInnerQuads` returns the empty list. -/
theorem removeInnerQuads_duplicate_pair_empty :
    removeInnerQuads pointPolygonTest [sq 0 10, sq 0 10] = [] := by
  decide

/-- Claim C2, amended: when two entries at distinct positions are identical and the
quad tests inside-or-on itself, `removeInnerQuads` keeps no copy of it; on a list of
just these two entries the output is empty. -/
theorem removeInnerQuads_duplicates_dropped (ppt : PolygonTest) (quads : List Contour)
    (i j : Nat) (hi : i < quads.length) (hj : j < quads.length) (hij : i ≠ j)
    (heq : quads[i] = quads[j]) (hself : isInside ppt quads[i] quads[i] = true) :
    quads[i] ∉ removeInnerQuads ppt quads ∧
      (quads.length = 2 → removeInnerQuads ppt quads = []) := by
  have hnot : quads[i] ∉ removeInnerQuads ppt quads := by
    intro hmem
    unfold removeInnerQuads at hmem
    obtain ⟨kc, hkc, hsnd⟩ := List.mem_map.1 hmem
    obtain ⟨hk, hlargest⟩ := List.mem_filter.1 hkc
    obtain ⟨hklt, hkget⟩ := (mem_enum_iff_getElem quads kc).1 hk
    rw [isLargest_iff] at hlargest
    by_cases hki : kc.1 = i
    · have hjm : (j, quads[j]) ∈ quads.enum := (mem_enum_iff_getElem quads _).2 ⟨hj, rfl⟩
      have := hlargest (j, quads[j]) hjm (by simpa [hki] using Ne.symm hij)
      simp only [hsnd, ← heq, hself] at this
      exact Bool.noConfusion this
    · have him : (i, quads[i]) ∈ quads.enum := (mem_enum_iff_getElem quads _).2 ⟨hi, rfl⟩
      have := hlargest (i, quads[i]) him (by simpa using Ne.symm hki)
      simp only [hsnd, hself] at this
      exact Bool.noConfusion this
  refine ⟨hnot, ?_⟩
  intro hlen
  apply List.eq_nil_iff_forall_not_mem.2
  intro x hx
  have hxq : x ∈ quads := by
    unfold removeInnerQuads at hx
    obtain ⟨kc, hkc, rfl⟩ := List.mem_map.1 hx
    obtain ⟨hklt, hkget⟩ := (mem_enum_iff_getElem quads kc).1 (List.mem_filter.1 hkc).1
    rw [← hkget]
    exact List.getElem_mem _
  obtain ⟨k, hk, rfl⟩ := List.mem_iff_getElem.1 hxq
  have hk' : k = i ∨ k = j := by omega
  rcases hk' with rfl | rfl
  · exact hnot hx
  · exact hnot (by simpa [heq] using hx)

/-- Two identical inner squares: neither copy is kept. -/
theorem removeInnerQuads_duplicates_dropped_witness :
    sq 2 8 ∉ removeInnerQuads pointPolygonTest [sq 2 8, sq 2 8] ∧
      ([sq 2 8, sq 2 8].length = 2 → removeInnerQuads pointPolygonTest [sq 2 8, sq 2 8] = []) :=
  removeInnerQuads_duplicates_dropped pointPolygonTest [sq 2 8, sq 2 8] 0 1
    (by decide) (by decide) (by decide) (by decide) (by decide)

/-- Claim C3: in the output of `removeInnerQuads` no entry has all its vertices
inside-or-on another entry: `isInside` is false on every pair of distinct positions,
in both directions. -/
theorem removeInnerQuads_no_nested (ppt : PolygonTest) (quads : List Contour) :
    (removeInnerQuads ppt quads).Pairwise
      (fun Q R => isInside ppt Q R = false ∧ isInside ppt R Q = false) := by
  rw [List.pairwise_iff_getElem]
  intro a b ha hb hab
  exact ⟨removeInnerQuads_no_nested_aux ppt quads a b ha hb (Nat.ne_of_lt hab),
    removeInnerQuads_no_nested_aux ppt quads b a hb ha (Nat.ne_of_gt hab)⟩

/-- Claim C4: `removeInnerQuads` is idempotent: applied to its own output it returns
that output, same elements in the same order. -/
theorem removeInnerQuads_idempotent (ppt : PolygonTest) (quads : List Contour) :
    removeInnerQuads ppt (removeInnerQuads ppt quads) = removeInnerQuads ppt quads := by
  have key : ∀ ic ∈ (removeInnerQuads ppt quads).enum,
      isLargest ppt (removeInnerQuads ppt quads) ic = true := by
    intro ic hic
    rw [isLargest_iff]
    intro js hjs hne
    obtain ⟨h1, e1⟩ := (mem_enum_iff_getElem _ ic).1 hic
    obtain ⟨h2, e2⟩ := (mem_enum_iff_getElem _ js).1 hjs
    rw [← e1, ← e2]
    exact removeInnerQuads_no_nested_aux ppt quads ic.1 js.1 h1 h2 (Ne.symm hne)
  generalize removeInnerQuads ppt quads = out at key ⊢
  unfold removeInnerQuads
  rw [List.filter_eq_self.2 key, List.enum_map_snd]
/-! Lemmas on the geometry kit and the squareness gate -/

theorem wrap32_zero : wrap32 0 = 0 := by decide

theorem wrap32_of_fits (a : Int) (h1 : -2147483648 ≤ a) (h2 : a < 2147483648) :
    wrap32 a = a := by
  unfold wrap32; omega

theorem refLibm_sound : refLibm.Sound := by
  refine ⟨?_, ?_, ?_, ?_⟩
  · intro q hq
    have hn : 0 < q.num := Rat.num_pos.2 hq
    have hn' : 0 < q.num.toNat := by omega
    have hd : 0 < q.den := q.den_pos
    show 0 < refSqrt q
    unfold refSqrt
    split_ifs
    · apply div_pos
      · exact_mod_cast Nat.sqrt_pos.2 hn'
      · exact_mod_cast Nat.sqrt_pos.2 hd
    · apply div_pos
      · have : 0 < q.num.toNat * q.den * 2 ^ 104 := by positivity
        exact_mod_cast Nat.sqrt_pos.2 this
      · have : (0 : ℚ) < q.den := by exact_mod_cast hd
        positivity
  · show refSqrt 0 = 0
    simp [refSqrt]
  · intro q hq
    show refSqrt (q * q) = q
    have hn : 0 ≤ q.num := Rat.num_nonneg.2 hq
    have e1 : (q * q).num.toNat = q.num.toNat * q.num.toNat := by
      rw [Rat.mul_self_num]
      obtain ⟨n, hn'⟩ := Int.eq_ofNat_of_zero_le hn
      rw [hn']
      have : ((n : Int) * (n : Int)) = ((n * n : Nat) : Int) := by push_cast; ring
      rw [this, Int.toNat_natCast, Int.toNat_natCast]
    have e2 : (q * q).den = q.den * q.den := Rat.mul_self_den q
    unfold refSqrt
    rw [e1, e2, Nat.sqrt_eq, Nat.sqrt_eq, if_pos ⟨rfl, rfl⟩]
    have : ((q.num.toNat : Int) : ℚ) = (q.num : ℚ) := by rw [Int.toNat_of_nonneg hn]
    rw [← Int.cast_natCast q.num.toNat, this]
    exact Rat.num_div_den q
  · show 157 / 100 ≤ refAcos 0 ∧ refAcos 0 ≤ 158 / 100
    unfold refAcos M_PI
    constructor <;> norm_num

theorem isQuadSquareFrom_cons (lm : Libm) (quad : Contour) (i : Nat) (rest : List Nat)
    (acc : List Int) :
    isQuadSquareFrom lm quad (i :: rest) acc =
      if Flt.lt (Segment.angleDeg lm (edgeU quad i) (edgeV quad i)) square_angle_min ||
          Flt.lt square_angle_max (Segment.angleDeg lm (edgeU quad i) (edgeV quad i))
      then false
      else isQuadSquareFrom lm quad rest (acc ++ [(edgeU quad i).lengthSq]) := rfl

theorem isQuadSquareFrom_nil (lm : Libm) (quad : Contour) (acc : List Int) :
    isQuadSquareFrom lm quad [] acc =
      !(Flt.lt (Flt.mul square_side_ratio_max square_side_ratio_max)
        (Flt.div (Flt.ofInt ((acc.insertionSort (fun a b => a ≤ b)).getLastD 0))
          (Flt.ofInt ((acc.insertionSort (fun a b => a ≤ b)).headD 0)))) := by
  simp only [isQuadSquareFrom]
  generalize Flt.lt _ _ = c
  cases c <;> rfl

theorem sideRatioOk_equal (L : Int) : sideRatioOk [L, L, L, L] = true := by
  by_cases h : L = 0
  · subst h
    simp [sideRatioOk, List.insertionSort, List.orderedInsert, Flt.ofInt, Flt.div, Flt.sign,
      Flt.ofSign, Flt.lt, Flt.mul, square_side_ratio_max]
  · have h' : (L : ℚ) ≠ 0 := by exact_mod_cast h
    simp [sideRatioOk, List.insertionSort, List.orderedInsert, Flt.ofInt, Flt.div, Flt.lt,
      Flt.mul, square_side_ratio_max, h']
    norm_num

theorem lengthSq_of_small (a b : Point) (ha : SmallCoords a) (hb : SmallCoords b) :
    (Segment.mk a b).lengthSq = (a.x - b.x) * (a.x - b.x) + (a.y - b.y) * (a.y - b.y) := by
  obtain ⟨a1, a2, a3, a4⟩ := ha
  obtain ⟨b1, b2, b3, b4⟩ := hb
  have hx : -32767 ≤ a.x - b.x ∧ a.x - b.x ≤ 32767 := by omega
  have hy : -32767 ≤ a.y - b.y ∧ a.y - b.y ≤ 32767 := by omega
  have h1 : (a.x - b.x) * (a.x - b.x) ≤ 1073676289 := by nlinarith [hx.1, hx.2]
  have h2 : (a.y - b.y) * (a.y - b.y) ≤ 1073676289 := by nlinarith [hy.1, hy.2]
  have h3 := mul_self_nonneg (a.x - b.x)
  have h4 := mul_self_nonneg (a.y - b.y)
  simp only [Segment.lengthSq, Point.sub, Point.dot]
  rw [wrap32_of_fits (a.x - b.x) (by omega) (by omega),
    wrap32_of_fits (a.y - b.y) (by omega) (by omega), wrap32_of_fits _ (by omega) (by omega)]

theorem lengthSq_nonneg_of_small (a b : Point) (ha : SmallCoords a) (hb : SmallCoords b) :
    0 ≤ (Segment.mk a b).lengthSq := by
  rw [lengthSq_of_small a b ha hb]
  nlinarith [mul_self_nonneg (a.x - b.x), mul_self_nonneg (a.y - b.y)]

theorem lengthSq_self (a : Point) : (Segment.mk a a).lengthSq = 0 := by
  simp [Segment.lengthSq, Point.sub, Point.dot, wrap32_zero]

theorem lengthSq_pos_of_ne (a b : Point) (ha : SmallCoords a) (hb : SmallCoords b)
    (hne : a ≠ b) : 0 < (Segment.mk a b).lengthSq := by
  rw [lengthSq_of_small a b ha hb]
  have hne' : a.x - b.x ≠ 0 ∨ a.y - b.y ≠ 0 := by
    by_contra hcon
    push_neg at hcon
    apply hne
    cases a; cases b
    simp only [Point.mk.injEq]
    simp only at hcon
    omega
  rcases hne' with h | h
  · have := mul_self_pos.2 h
    nlinarith [mul_self_nonneg (a.y - b.y)]
  · have := mul_self_pos.2 h
    nlinarith [mul_self_nonneg (a.x - b.x)]

theorem sorted_headD_le (l : List Int) (d x : Int) (hs : l.Pairwise (fun a b => a ≤ b))
    (hx : x ∈ l) : l.headD d ≤ x := by
  cases l with
  | nil => simp at hx
  | cons h t =>
    rcases List.mem_cons.1 hx with rfl | hx
    · simp
    · exact (List.pairwise_cons.1 hs).1 x hx

theorem sorted_le_getLastD (l : List Int) (d x : Int)
    (hs : (d :: l).Pairwise (fun a b => a ≤ b)) (hx : x ∈ d :: l) : x ≤ l.getLastD d := by
  induction l generalizing d x with
  | nil => simp at hx; simp [hx]
  | cons h t ih =>
    rw [List.getLastD_cons]
    have hs' := (List.pairwise_cons.1 hs).2
    rcases List.mem_cons.1 hx with rfl | hx
    · exact le_trans ((List.pairwise_cons.1 hs).1 h (List.mem_cons_self _ _))
        (ih h h hs' (List.mem_cons_self _ _))
    · exact ih h x hs' hx

/-- A zero squared length next to a positive one, none negative: the ratio is `+∞`
and the side-ratio test fails. -/
theorem sideRatioOk_zero_edge (lens : List Int) (hnn : ∀ x ∈ lens, 0 ≤ x) (h0 : (0 : Int) ∈ lens)
    (m : Int) (hm : m ∈ lens) (hpos : 0 < m) : sideRatioOk lens = false := by
  have hperm := List.perm_insertionSort (fun a b : Int => a ≤ b) lens
  have hsorted : (lens.insertionSort (fun a b => a ≤ b)).Pairwise (fun a b => a ≤ b) :=
    List.sorted_insertionSort (fun a b : Int => a ≤ b) lens
  unfold sideRatioOk
  generalize lens.insertionSort (fun a b => a ≤ b) = S at hperm hsorted
  have h0S : (0 : Int) ∈ S := hperm.mem_iff.2 h0
  have hmS : m ∈ S := hperm.mem_iff.2 hm
  have hhead : S.headD 0 = 0 := by
    have h1 := sorted_headD_le S 0 0 hsorted h0S
    have h2 : 0 ≤ S.headD 0 := by
      cases S with
      | nil => simp
      | cons h t => exact hnn h (hperm.mem_iff.1 (List.mem_cons_self _ _))
    omega
  have hlast : 0 < S.getLastD 0 := by
    cases S with
    | nil => simp at hmS
    | cons h t =>
      rw [List.getLastD_cons]
      exact lt_of_lt_of_le hpos (sorted_le_getLastD t h m hsorted hmS)
  rw [hhead]
  generalize S.getLastD 0 = L at hlast
  simp [Flt.ofInt, Flt.div, Flt.sign, Flt.ofSign, Flt.lt, Flt.mul, square_side_ratio_max,
    not_lt.2 (le_of_lt hlast), ne_of_gt hlast]

theorem isQuadSquareFrom_false_or (lm : Libm) (quad : Contour) (is : List Nat) (acc : List Int) :
    isQuadSquareFrom lm quad is acc = false ∨
      isQuadSquareFrom lm quad is acc =
        sideRatioOk (acc ++ is.map (fun i => (edgeU quad i).lengthSq)) := by
  induction is generalizing acc with
  | nil => right; simp [isQuadSquareFrom_nil, sideRatioOk]
  | cons i rest ih =>
    rw [isQuadSquareFrom_cons]
    split_ifs
    · exact Or.inl rfl
    · rcases ih (acc ++ [(edgeU quad i).lengthSq]) with h | h
      · exact Or.inl h
      · right; rw [h]; simp

/-- With a zero-length edge the cosine is `0 / 0` and the angle is NaN. -/
theorem angleDeg_zero_edge (lm : Libm) (hs : lm.sqrt 0 = 0) (u v : Segment)
    (h : u.a.sub u.b = ⟨0, 0⟩ ∨ v.a.sub v.b = ⟨0, 0⟩) :
    Segment.angleDeg lm u v = Flt.nan := by
  unfold Segment.angleDeg
  rcases h with h | h <;>
    simp [h, Point.ddot, Flt.ofInt, Flt.mul, Flt.add, Flt.sqrt, Flt.div, Flt.acos, hs, Flt.sign,
      Flt.ofSign]

/-- A quad whose four vertices coincide passes every test of `isQuadSquare`:
each angle is NaN and so is the side ratio, and no comparison with NaN holds. -/
theorem isQuadSquare_point (lm : Libm) (hs : lm.sqrt 0 = 0) (p : Point) :
    isQuadSquare lm [p, p, p, p] = some true := by
  have hlen : 4 ≤ [p, p, p, p].length := by simp
  have hsub : p.sub p = ⟨0, 0⟩ := by simp [Point.sub, wrap32_zero]
  have hang : ∀ i ∈ [0, 1, 2, 3],
      Segment.angleDeg lm (edgeU [p, p, p, p] i) (edgeV [p, p, p, p] i) = Flt.nan := by
    intro i hi
    apply angleDeg_zero_edge lm hs
    simp only [List.mem_cons, List.mem_singleton, List.not_mem_nil, or_false] at hi
    rcases hi with rfl | rfl | rfl | rfl <;> simp [edgeU, hsub]
  have hnan : ∀ x y : Flt, (Flt.lt Flt.nan x || Flt.lt y Flt.nan) = false := by
    intro x y; cases x <;> cases y <;> rfl
  have e : ∀ i ∈ [0, 1, 2, 3], (edgeU [p, p, p, p] i).lengthSq = 0 := by
    intro i hi
    simp only [List.mem_cons, List.mem_singleton, List.not_mem_nil, or_false] at hi
    rcases hi with rfl | rfl | rfl | rfl <;> simp [edgeU, lengthSq_self]
  have hside := sideRatioOk_equal 0
  unfold sideRatioOk at hside
  rw [isQuadSquare, if_pos hlen]
  simp only [isQuadSquareFrom_cons, isQuadSquareFrom_nil]
  rw [hang 0 (by simp), hang 1 (by simp), hang 2 (by simp), hang 3 (by simp),
    e 0 (by simp), e 1 (by simp), e 2 (by simp), e 3 (by simp)]
  simp only [square_angle_min, square_angle_max, hnan, Bool.false_eq_true, if_false,
    List.nil_append, List.cons_append, List.singleton_append]
  rw [hside]

/-! Claims on the squareness gate -/

/-- Claim C10, amended: a four-vertex polygon with pixel coordinates in `[0, 32767]`
that has a zero-length edge, and whose vertices are not all the same point, is
rejected by `isQuadSquare`, whatever `sqrt` and `acos` return: if no angle test
rejects it, the smallest squared length is `0`, the ratio is `+∞` and the side-ratio
test fails. -/
theorem isQuadSquare_zero_edge (lm : Libm) (q0 q1 q2 q3 : Point)
    (h0 : SmallCoords q0) (h1 : SmallCoords q1) (h2 : SmallCoords q2) (h3 : SmallCoords q3)
    (hzero : q0 = q1 ∨ q1 = q2 ∨ q2 = q3 ∨ q3 = q0)
    (hnot : ¬ (q0 = q1 ∧ q1 = q2 ∧ q2 = q3)) :
    isQuadSquare lm [q0, q1, q2, q3] = some false := by
  have hlen : 4 ≤ [q0, q1, q2, q3].length := by simp
  rw [isQuadSquare, if_pos hlen]
  congr 1
  rcases isQuadSquareFrom_false_or lm [q0, q1, q2, q3] [0, 1, 2, 3] [] with h | h
  · exact h
  · rw [h]
    have e : ([] ++ List.map (fun i => (edgeU [q0, q1, q2, q3] i).lengthSq) [0, 1, 2, 3]) =
        [(Segment.mk q1 q0).lengthSq, (Segment.mk q2 q1).lengthSq,
          (Segment.mk q3 q2).lengthSq, (Segment.mk q0 q3).lengthSq] := by
      simp [edgeU]
    rw [e]
    have hnn : ∀ x ∈ [(Segment.mk q1 q0).lengthSq, (Segment.mk q2 q1).lengthSq,
        (Segment.mk q3 q2).lengthSq, (Segment.mk q0 q3).lengthSq], 0 ≤ x := by
      intro x hx
      simp only [List.mem_cons, List.mem_singleton, List.not_mem_nil, or_false] at hx
      rcases hx with rfl | rfl | rfl | rfl
      · exact lengthSq_nonneg_of_small _ _ h1 h0
      · exact lengthSq_nonneg_of_small _ _ h2 h1
      · exact lengthSq_nonneg_of_small _ _ h3 h2
      · exact lengthSq_nonneg_of_small _ _ h0 h3
    have hz : (0 : Int) ∈ [(Segment.mk q1 q0).lengthSq, (Segment.mk q2 q1).lengthSq,
        (Segment.mk q3 q2).lengthSq, (Segment.mk q0 q3).lengthSq] := by
      rcases hzero with rfl | rfl | rfl | rfl <;> simp [lengthSq_self]
    have hne : q1 ≠ q0 ∨ q2 ≠ q1 ∨ q3 ≠ q2 := by
      by_contra hcon
      push_neg at hcon
      exact hnot ⟨hcon.1.symm, hcon.2.1.symm, hcon.2.2.symm⟩
    rcases hne with hne | hne | hne
    · exact sideRatioOk_zero_edge _ hnn hz _ (by simp) (lengthSq_pos_of_ne _ _ h1 h0 hne)
    · exact sideRatioOk_zero_edge _ hnn hz _ (by simp) (lengthSq_pos_of_ne _ _ h2 h1 hne)
    · exact sideRatioOk_zero_edge _ hnn hz _ (by simp) (lengthSq_pos_of_ne _ _ h3 h2 hne)

/-- A polygon whose first two vertices coincide is rejected. -/
theorem isQuadSquare_zero_edge_witness :
    isQuadSquare refLibm [⟨0, 0⟩, ⟨0, 0⟩, ⟨10, 0⟩, ⟨10, 10⟩] = some false :=
  isQuadSquare_zero_edge refLibm ⟨0, 0⟩ ⟨0, 0⟩ ⟨10, 0⟩ ⟨10, 10⟩
    (by unfold SmallCoords; decide) (by unfold SmallCoords; decide)
    (by unfold SmallCoords; decide) (by unfold SmallCoords; decide)
    (Or.inl rfl) (by decide)

/-- Claim C10, as stated, fails: the polygon whose four vertices are the point
`(5, 5)` is accepted. Every angle and the side ratio are NaN, and no comparison with
NaN holds. -/
theorem isQuadSquare_point_accepted :
    isQuadSquare refLibm [⟨5, 5⟩, ⟨5, 5⟩, ⟨5, 5⟩, ⟨5, 5⟩] = some true :=
  isQuadSquare_point refLibm refLibm_sound.sqrt_zero ⟨5, 5⟩

/-! Lemmas on the circle associator and the ranker -/

theorem squaresWithCircles_map_square (tl : Contour → Point) (fc : Contour → List Circle)
    (squares : List Contour) :
    (squaresWithCircles tl fc squares).map SquareWithCircles.square =
      squares.filter (fun s => !(fc s).isEmpty) := by
  induction squares with
  | nil => rfl
  | cons s rest ih =>
    simp only [squaresWithCircles, List.isEmpty_eq_true, List.map_eq_nil_iff]
    by_cases h : fc s = []
    · simp [h, ih]
    · simp [h, ih]

theorem squaresWithCircles_mem (tl : Contour → Point) (fc : Contour → List Circle)
    (squares : List Contour) (e : SquareWithCircles)
    (he : e ∈ squaresWithCircles tl fc squares) :
    e.square ∈ squares ∧
      e.circles = (fc e.square).map (fun c => c.move (tl e.square).toPoint2f) ∧
      e.circles ≠ [] := by
  induction squares with
  | nil => simp [squaresWithCircles] at he
  | cons s rest ih =>
    simp only [squaresWithCircles, List.isEmpty_eq_true, List.map_eq_nil_iff] at he
    by_cases h : fc s = []
    · rw [if_pos h] at he
      obtain ⟨h1, h2⟩ := ih he
      exact ⟨List.mem_cons_of_mem _ h1, h2⟩
    · rw [if_neg h] at he
      rcases List.mem_cons.1 he with rfl | he
      · exact ⟨List.mem_cons_self _ _, rfl, by simpa using h⟩
      · obtain ⟨h1, h2⟩ := ih he
        exact ⟨List.mem_cons_of_mem _ h1, h2⟩

theorem insertAfter_perm {α : Type} (comp : α → α → Bool) (x : α) (l : List α) :
    (insertAfter comp x l).Perm (x :: l) := by
  induction l with
  | nil => exact List.Perm.refl _
  | cons y ys ih =>
    unfold insertAfter
    split_ifs
    · exact List.Perm.refl _
    · exact (List.Perm.cons y ih).trans (List.Perm.swap x y ys)

theorem tieReversingSort_perm {α : Type} (comp : α → α → Bool) (l : List α) :
    (tieReversingSort comp l).Perm l := by
  induction l with
  | nil => exact List.Perm.refl _
  | cons x xs ih =>
    exact (insertAfter_perm comp x _).trans (List.Perm.cons x ih)

theorem insertAfter_sorted {α : Type} (comp : α → α → Bool) (x : α) (l : List α)
    (hirr : ∀ a, a = x ∨ a ∈ l → comp a a = false)
    (htr : ∀ a b c, (a = x ∨ a ∈ l) → (b = x ∨ b ∈ l) → (c = x ∨ c ∈ l) →
      comp a b = true → comp b c = true → comp a c = true)
    (hl : l.Pairwise (fun a b => comp b a = false)) :
    (insertAfter comp x l).Pairwise (fun a b => comp b a = false) := by
  induction l with
  | nil => simp [insertAfter]
  | cons y ys ih =>
    unfold insertAfter
    obtain ⟨hy, hys⟩ := List.pairwise_cons.1 hl
    by_cases hxy : comp x y = true
    · rw [if_pos hxy]
      refine List.pairwise_cons.2 ⟨?_, hl⟩
      intro z hz
      by_contra hcon
      have hzx : comp z x = true := by simpa using hcon
      have hzmem : z = x ∨ z ∈ y :: ys := Or.inr hz
      have hzy : comp z y = true :=
        htr z x y hzmem (Or.inl rfl) (Or.inr (List.mem_cons_self _ _)) hzx hxy
      rcases List.mem_cons.1 hz with rfl | hz'
      · rw [hirr z hzmem] at hzy
        exact Bool.noConfusion hzy
      · -- hy says an element after y is not smaller than y: comp z y = false
        rw [hy z hz'] at hzy
        exact Bool.noConfusion hzy
    · rw [if_neg hxy]
      have ih' := ih (fun a ha => hirr a (ha.imp id (List.mem_cons_of_mem _)))
        (fun a b c ha hb hc => htr a b c (ha.imp id (List.mem_cons_of_mem _))
          (hb.imp id (List.mem_cons_of_mem _)) (hc.imp id (List.mem_cons_of_mem _))) hys
      refine List.pairwise_cons.2 ⟨?_, ih'⟩
      intro z hz
      rcases List.mem_cons.1 ((insertAfter_perm comp x ys).mem_iff.1 hz) with rfl | hz'
      · simpa using hxy
      · exact hy z hz'

theorem tieReversingSort_sorted {α : Type} (comp : α → α → Bool) (l : List α)
    (h : StrictWeakOn comp l) :
    (tieReversingSort comp l).Pairwise (fun a b => comp b a = false) := by
  obtain ⟨hirr, htr, -⟩ := h
  induction l with
  | nil => simp [tieReversingSort]
  | cons x xs ih =>
    have hmem : ∀ a, a = x ∨ a ∈ tieReversingSort comp xs → a ∈ x :: xs := by
      intro a ha
      rcases ha with rfl | ha
      · exact List.mem_cons_self _ _
      · exact List.mem_cons_of_mem _ ((tieReversingSort_perm comp xs).mem_iff.1 ha)
    apply insertAfter_sorted
    · intro a ha
      exact hirr a (hmem a ha)
    · intro a b c ha hb hc
      exact htr a (hmem a ha) b (hmem b hb) c (hmem c hc)
    · exact ih (fun a ha => hirr a (List.mem_cons_of_mem _ ha))
        (fun a ha b hb c hc => htr a (List.mem_cons_of_mem _ ha) b (List.mem_cons_of_mem _ hb)
          c (List.mem_cons_of_mem _ hc))

theorem tieReversingSort_conforms : StdSort.Conforms tieReversingSort :=
  ⟨fun comp l => tieReversingSort_perm comp l, fun comp l h => tieReversingSort_sorted comp l h⟩

theorem squaresWithCircles_eq (tl : Contour → Point) (fc : Contour → List Circle)
    (squares : List Contour) :
    squaresWithCircles tl fc squares =
      (squares.filter (fun s => !(fc s).isEmpty)).map
        (fun s => ⟨s, (fc s).map (fun c => c.move (tl s).toPoint2f)⟩) := by
  induction squares with
  | nil => rfl
  | cons s rest ih =>
    simp only [squaresWithCircles, List.isEmpty_eq_true, List.map_eq_nil_iff]
    by_cases h : fc s = []
    · simp [h, ih]
    · simp [h, ih]

/-- Claim C7: `Circle::move` returns the circle with the offset added to the centre
and the radius unchanged (a new value; the argument is not modified), and the circles
`squaresWithCircles` stores for a square are the detector's crop-local circles moved
by the top-left corner of the bounding rectangle of that square; a local circle at
`(5, 5)` with crop offset `(100, 200)` is reported at `(105, 205)`. -/
theorem circle_move_offset :
    (∀ (c : Circle) (offset : Point2f),
      c.move offset = ⟨Flt.add c.x offset.x, Flt.add c.y offset.y, c.radius⟩) ∧
    (∀ (tl : Contour → Point) (fc : Contour → List Circle) (squares : List Contour),
      squaresWithCircles tl fc squares =
        (squares.filter (fun s => !(fc s).isEmpty)).map
          (fun s => ⟨s, (fc s).map (fun c => c.move (tl s).toPoint2f)⟩)) ∧
    (∀ r : Flt, (Circle.mk (Flt.fin 5) (Flt.fin 5) r).move (Point.mk 100 200).toPoint2f =
      ⟨Flt.fin 105, Flt.fin 205, r⟩) ∧
    (∀ (s : Contour) (r : Flt),
      squaresWithCircles (fun _ => ⟨100, 200⟩) (fun _ => [⟨Flt.fin 5, Flt.fin 5, r⟩]) [s] =
        [⟨s, [⟨Flt.fin 105, Flt.fin 205, r⟩]⟩]) := by
  have hmove : ∀ r : Flt,
      (Circle.mk (Flt.fin 5) (Flt.fin 5) r).move (Point.mk 100 200).toPoint2f =
        ⟨Flt.fin 105, Flt.fin 205, r⟩ := by
    intro r
    simp only [Circle.move, Point.toPoint2f, Flt.ofInt, Flt.add]
    norm_num
  refine ⟨fun c offset => rfl, squaresWithCircles_eq, hmove, ?_⟩
  intro s r
  simp only [squaresWithCircles, List.map_cons, List.map_nil, List.isEmpty_cons,
    Bool.false_eq_true, if_false, hmove]

/-- Claim C8: `squaresWithCircles` returns, in input order, one entry for each input
square whose detector result is non-empty and none for the others; every entry has at
least one circle, and still has after `sortSquares`, for every `std::sort` that keeps
its contract. -/
theorem squaresWithCircles_nonempty_circles (tl : Contour → Point)
    (fc : Contour → List Circle) (squares : List Contour) :
    (squaresWithCircles tl fc squares).map SquareWithCircles.square =
      squares.filter (fun s => !(fc s).isEmpty) ∧
    (∀ e ∈ squaresWithCircles tl fc squares, 1 ≤ e.circles.length) ∧
    (∀ (lm : Libm) (sort : StdSort), sort.Conforms →
      ∀ e ∈ sortSquares lm sort (squaresWithCircles tl fc squares), 1 ≤ e.circles.length) := by
  have hall : ∀ e ∈ squaresWithCircles tl fc squares, 1 ≤ e.circles.length := by
    intro e he
    have := (squaresWithCircles_mem tl fc squares e he).2.2
    exact List.length_pos.2 this
  refine ⟨squaresWithCircles_map_square tl fc squares, hall, ?_⟩
  intro lm sort hsort e he
  exact hall e ((hsort.perm _ _).mem_iff.1 he)

/-- A square without circles is dropped and the square with one circle is kept, also
after sorting. -/
theorem squaresWithCircles_nonempty_circles_witness :
    (squaresWithCircles (fun _ => ⟨0, 0⟩)
        (fun s => if s = nearSquare then [⟨Flt.fin 7, Flt.fin 5, Flt.fin 1⟩] else [])
        [farSquare, nearSquare]).map SquareWithCircles.square = [nearSquare] ∧
    (sortSquares refLibm tieReversingSort
        (squaresWithCircles (fun _ => ⟨0, 0⟩)
          (fun s => if s = nearSquare then [⟨Flt.fin 7, Flt.fin 5, Flt.fin 1⟩] else [])
          [farSquare, nearSquare])).all (fun e => decide (1 ≤ e.circles.length)) = true := by
  have h := squaresWithCircles_nonempty_circles (fun _ => ⟨0, 0⟩)
    (fun s => if s = nearSquare then [⟨Flt.fin 7, Flt.fin 5, Flt.fin 1⟩] else [])
    [farSquare, nearSquare]
  refine ⟨?_, ?_⟩
  · rw [h.1]
    have hne : farSquare ≠ nearSquare := by decide
    simp [hne]
  · rw [List.all_eq_true]
    intro e he
    exact decide_eq_true (h.2.2 refLibm tieReversingSort tieReversingSort_conforms e he)

end Symdetect
